import Mathlib

/-!
Verification development for the detection-evaluation core of `eval.py`
(single-class YOLO evaluation: IoU geometry, non-maximum suppression,
per-image greedy matching, precision/recall accumulation and average
precision).

All numeric quantities are modelled over `ℚ`.  The source operates on
`float64`/`float32` tensors; every claim checked here is about exact
arithmetic identities that hold equally over `ℚ`, except where IEEE-754
special values are themselves the subject (the zero ground-truth recall
division), which is modelled explicitly by the sentinel type `NFloat`.
-/

/-- An axis-aligned box in corner format `(x1, y1, x2, y2)`,
as consumed by `bbox_iou` and `nms` in `eval.py`. -/
structure Box where
  x1 : ℚ
  y1 : ℚ
  x2 : ℚ
  y2 : ℚ
deriving DecidableEq, Repr

instance : Inhabited Box := ⟨⟨0, 0, 0, 0⟩⟩

/-- A box has positive width and height (the spec's validity invariant). -/
def Box.valid (b : Box) : Prop := b.x1 < b.x2 ∧ b.y1 < b.y2

instance (b : Box) : Decidable b.valid := by unfold Box.valid; infer_instance

/-- Interiors (indeed closures) of the two boxes share no point:
they are separated on the x-axis or on the y-axis. -/
def Box.disjoint (b1 b2 : Box) : Prop :=
  b1.x2 ≤ b2.x1 ∨ b2.x2 ≤ b1.x1 ∨ b1.y2 ≤ b2.y1 ∨ b2.y2 ≤ b1.y1

/-- Source `eval.py` line 152/153: box area with the `+1` inclusive-pixel convention,
`(b1_x2 - b1_x1 + 1) * (b1_y2 - b1_y1 + 1)`. -/
def boxArea (b : Box) : ℚ := (b.x2 - b.x1 + 1) * (b.y2 - b.y1 + 1)

/-- Source `eval.py` line 149: clamped intersection area with the `+1` convention,
`clamp(x2i - x1i + 1, min=0) * clamp(y2i - y1i + 1, min=0)` where the
intersection rectangle is per-axis max of lefts/tops, min of rights/bottoms. -/
def interArea (b1 b2 : Box) : ℚ :=
  max (min b1.x2 b2.x2 - max b1.x1 b2.x1 + 1) 0 *
    max (min b1.y2 b2.y2 - max b1.y1 b2.y1 + 1) 0

/-- Source `eval.py` lines 132-157, `bbox_iou`: IoU of two corner-format boxes,
`inter_area / (b1_area + b2_area - inter_area)`. -/
def bbox_iou (box1 box2 : Box) : ℚ :=
  interArea box1 box2 / (boxArea box1 + boxArea box2 - interArea box1 box2)

/-- Source `eval.py` line 86 inside `nms`: area `(x2 - x1) * (y2 - y1)`
(note: no `+1`, unlike `boxArea`). -/
def nmsArea (b : Box) : ℚ := (b.x2 - b.x1) * (b.y2 - b.y1)

/-- Source `eval.py` lines 107-127 inside `nms`: the overlap computed between the
just-emitted box `bi` and a remaining box `bj`: coordinates are clamped
(`xx1 = clamp(x1[j], min=x1[i])` etc.), widths `xx2 - xx1` (no `+1`)
clamped at 0, and `IoU = inter / (area[j] - inter + area[i])`. -/
def nmsIoU (bi bj : Box) : ℚ :=
  let xx1 := max bj.x1 bi.x1
  let yy1 := max bj.y1 bi.y1
  let xx2 := min bj.x2 bi.x2
  let yy2 := min bj.y2 bi.y2
  let w := max (xx2 - xx1) 0
  let h := max (yy2 - yy1) 0
  let inter := w * h
  inter / (nmsArea bj - inter + nmsArea bi)

/-! Sorting.

`eval.py` sorts with `torch.sort` (line 87) and `np.argsort` (line 217);
neither documents the order of equal keys.  We model sorting by insertion
sort with an explicit comparison.  For index sorting the comparison breaks
score ties by index, making it a total antisymmetric order, so the sorted
result is the one any correct sort would produce up to the unspecified tie
order. -/

/-- Insert `a` into `l` before the first element `b` with `le a b`. -/
def insertOrd (le : α → α → Bool) (a : α) : List α → List α
  | [] => [a]
  | b :: bs => if le a b then a :: b :: bs else b :: insertOrd le a bs

/-- Insertion sort by the comparison `le`. -/
def sortOrd (le : α → α → Bool) : List α → List α
  | [] => []
  | a :: as => insertOrd le a (sortOrd le as)

theorem insertOrd_perm (le : α → α → Bool) (a : α) (l : List α) :
    List.Perm (insertOrd le a l) (a :: l) := by
  induction l with
  | nil => exact List.Perm.refl _
  | cons b bs ih =>
    by_cases h : le a b = true
    · simp [insertOrd, h]
    · simp only [insertOrd, h, if_false, Bool.false_eq_true]
      exact ((ih.cons b).trans (List.Perm.swap a b bs))

theorem sortOrd_perm (le : α → α → Bool) (l : List α) :
    List.Perm (sortOrd le l) l := by
  induction l with
  | nil => exact List.Perm.refl _
  | cons a as ih => exact (insertOrd_perm le a (sortOrd le as)).trans (ih.cons a)

theorem length_sortOrd (le : α → α → Bool) (l : List α) :
    (sortOrd le l).length = l.length :=
  (sortOrd_perm le l).length_eq

theorem mem_insertOrd (le : α → α → Bool) (a x : α) (l : List α) :
    x ∈ insertOrd le a l ↔ x = a ∨ x ∈ l :=
  by simpa using (insertOrd_perm le a l).mem_iff

theorem pairwise_insertOrd (le : α → α → Bool)
    (hdic : ∀ a b, le a b = false → le b a = true)
    (htr : ∀ a b c, le a b = true → le b c = true → le a c = true)
    (a : α) (l : List α) (hl : l.Pairwise (fun x y => le x y = true)) :
    (insertOrd le a l).Pairwise (fun x y => le x y = true) := by
  induction l with
  | nil => simp [insertOrd]
  | cons b bs ih =>
    rcases hl with _ | ⟨hb, hbs⟩
    by_cases h : le a b = true
    · rw [insertOrd, if_pos h]
      refine List.Pairwise.cons ?_ (List.Pairwise.cons hb hbs)
      intro x hx
      rcases List.mem_cons.mp hx with heq | hx
      · rw [heq]; exact h
      · exact htr a b x h (hb x hx)
    · simp only [insertOrd, h, if_false, Bool.false_eq_true]
      refine List.Pairwise.cons ?_ (ih hbs)
      intro x hx
      rcases (mem_insertOrd le a x bs).1 hx with heq | hx
      · rw [heq]
        exact hdic a b (Bool.eq_false_iff.mpr h)
      · exact hb x hx

theorem pairwise_sortOrd (le : α → α → Bool)
    (hdic : ∀ a b, le a b = false → le b a = true)
    (htr : ∀ a b c, le a b = true → le b c = true → le a c = true)
    (l : List α) : (sortOrd le l).Pairwise (fun x y => le x y = true) := by
  induction l with
  | nil => simp [sortOrd]
  | cons a as ih => exact pairwise_insertOrd le hdic htr a (sortOrd le as) ih

theorem insertOrd_of_le_head (le : α → α → Bool) (a : α) (l : List α)
    (h : ∀ x ∈ l, le a x = true) : insertOrd le a l = a :: l := by
  cases l with
  | nil => rfl
  | cons b bs => simp [insertOrd, h b (by simp)]

theorem sortOrd_eq_self (le : α → α → Bool) (l : List α)
    (hl : l.Pairwise (fun x y => le x y = true)) : sortOrd le l = l := by
  induction l with
  | nil => rfl
  | cons a as ih =>
    rcases hl with _ | ⟨ha, has⟩
    rw [sortOrd, ih has, insertOrd_of_le_head le a as ha]

theorem insertOrd_of_all_false (le : α → α → Bool) (a : α) (l : List α)
    (h : ∀ x ∈ l, le a x = false) : insertOrd le a l = l ++ [a] := by
  induction l with
  | nil => rfl
  | cons b bs ih =>
    simp only [insertOrd, h b (by simp), if_false, Bool.false_eq_true, List.cons_append]
    rw [ih (fun x hx => h x (by simp [hx]))]

/-- Sorting a strictly anti-sorted list reverses it. -/
theorem sortOrd_eq_reverse (le : α → α → Bool) (l : List α)
    (hl : l.Pairwise (fun x y => le x y = false)) : sortOrd le l = l.reverse := by
  induction l with
  | nil => rfl
  | cons a as ih =>
    rcases hl with _ | ⟨ha, has⟩
    rw [sortOrd, ih has, insertOrd_of_all_false, List.reverse_cons]
    intro x hx
    exact ha x (by simpa using hx)

/-! Non-maximum suppression (`eval.py` lines 67-130) -/

/-- Source `eval.py` line 87: `v, idx = scores.sort(0)` — ascending index sort.
Score ties are broken by descending index (`torch.sort` leaves the tie
order unspecified), which makes the later pop-from-the-end processing
stable in the original index order. -/
def ascRel (scores : List ℚ) (i j : ℕ) : Bool :=
  decide (scores.getD i 0 < scores.getD j 0 ∨ (scores.getD i 0 = scores.getD j 0 ∧ j ≤ i))

/-- Indices `0, …, scores.length - 1` sorted ascending by score. -/
def ascIdx (scores : List ℚ) : List ℕ :=
  sortOrd (ascRel scores) (List.range scores.length)

/-- Python slice `l[-k:]` for `k : ℕ`: the last `min k (length l)` elements,
except that `l[-0:]` is `l[0:]`, i.e. all of `l`. -/
def pyTail (l : List α) (k : ℕ) : List α :=
  if k = 0 then l else l.drop (l.length - k)

/-- The `while idx.numel() > 0` loop of `eval.py` lines 98-129, processing
`idx` from the highest-score end: emit the head, then drop every remaining
index whose `nmsIoU` with the emitted box is strictly above `overlap`
(line 129 keeps `IoU ≤ overlap`).  `fuel` bounds the iteration count; it is
called with `fuel = idx.length`, which the loop never exhausts since each
step strictly shrinks `idx`. -/
def nmsLoop (boxes : List Box) (overlap : ℚ) : ℕ → List ℕ → List ℕ
  | _, [] => []
  | 0, _ :: _ => []
  | fuel + 1, i :: rest =>
      i :: nmsLoop boxes overlap fuel
        (rest.filter fun j =>
          decide (nmsIoU (boxes.getD i default) (boxes.getD j default) ≤ overlap))

/-- The suppression loop run to completion on a worklist `idx`
(highest-score index first). -/
def nmsSelect (boxes : List Box) (overlap : ℚ) (idx : List ℕ) : List ℕ :=
  nmsLoop boxes overlap idx.length idx

/-- Source `eval.py` lines 67-130, `nms`: returns the kept indices (in order of
selection, i.e. descending score) and their count.  Mirrors the source:
empty boxes short-circuit (line 80), scores are sorted ascending (line 87),
`idx = idx[-top_k:]` restricts to the top-k highest scores (line 89), and
the loop pops from the end, i.e. processes the reversal of that slice. -/
def nms (boxes : List Box) (scores : List ℚ) (overlap : ℚ) (top_k : ℕ) :
    List ℕ × ℕ :=
  if boxes = [] then ([], 0)
  else
    let kept := nmsSelect boxes overlap ((pyTail (ascIdx scores) top_k).reverse)
    (kept, kept.length)

/-- The pairwise relation the suppression loop enforces on its output. -/
abbrev IoUle (boxes : List Box) (overlap : ℚ) (i j : ℕ) : Prop :=
  nmsIoU (boxes.getD i default) (boxes.getD j default) ≤ overlap

theorem nmsLoop_sublist (boxes : List Box) (overlap : ℚ) :
    ∀ (fuel : ℕ) (idx : List ℕ), List.Sublist (nmsLoop boxes overlap fuel idx) idx := by
  intro fuel
  induction fuel with
  | zero => intro idx; cases idx <;> simp [nmsLoop]
  | succ n ih =>
    intro idx
    cases idx with
    | nil => simp [nmsLoop]
    | cons i rest =>
      rw [nmsLoop]
      exact List.Sublist.cons₂ i ((ih _).trans (List.filter_sublist rest))

theorem nmsLoop_pairwise (boxes : List Box) (overlap : ℚ) :
    ∀ (fuel : ℕ) (idx : List ℕ),
      (nmsLoop boxes overlap fuel idx).Pairwise (IoUle boxes overlap) := by
  intro fuel
  induction fuel with
  | zero => intro idx; cases idx <;> simp [nmsLoop]
  | succ n ih =>
    intro idx
    cases idx with
    | nil => simp [nmsLoop]
    | cons i rest =>
      rw [nmsLoop]
      refine List.Pairwise.cons ?_ (ih _)
      intro j hj
      have hj' := (nmsLoop_sublist boxes overlap n _).subset hj
      have := List.of_mem_filter hj'
      exact of_decide_eq_true this

theorem nmsLoop_eq_self (boxes : List Box) (overlap : ℚ) :
    ∀ (fuel : ℕ) (idx : List ℕ), idx.length ≤ fuel →
      idx.Pairwise (IoUle boxes overlap) → nmsLoop boxes overlap fuel idx = idx := by
  intro fuel
  induction fuel with
  | zero =>
    intro idx h _
    rw [Nat.le_zero, List.length_eq_zero] at h
    subst h; rfl
  | succ n ih =>
    intro idx hlen hpw
    cases idx with
    | nil => rfl
    | cons i rest =>
      rcases hpw with _ | ⟨hi, hrest⟩
      rw [nmsLoop]
      have hfilter : (rest.filter fun j =>
          decide (nmsIoU (boxes.getD i default) (boxes.getD j default) ≤ overlap)) = rest :=
        List.filter_eq_self.mpr (fun j hj => decide_eq_true (hi j hj))
      rw [hfilter, ih rest (by simp at hlen; omega) hrest]

theorem nmsSelect_sublist (boxes : List Box) (overlap : ℚ) (idx : List ℕ) :
    List.Sublist (nmsSelect boxes overlap idx) idx :=
  nmsLoop_sublist boxes overlap idx.length idx

theorem nmsSelect_pairwise (boxes : List Box) (overlap : ℚ) (idx : List ℕ) :
    (nmsSelect boxes overlap idx).Pairwise (IoUle boxes overlap) :=
  nmsLoop_pairwise boxes overlap idx.length idx

theorem nmsSelect_eq_self (boxes : List Box) (overlap : ℚ) (idx : List ℕ)
    (h : idx.Pairwise (IoUle boxes overlap)) : nmsSelect boxes overlap idx = idx :=
  nmsLoop_eq_self boxes overlap idx.length idx le_rfl h

theorem ascRel_false_of_not (scores : List ℚ) (i j : ℕ)
    (h : ascRel scores i j = false) : ascRel scores j i = true := by
  unfold ascRel at h ⊢
  rw [decide_eq_false_iff_not] at h
  push_neg at h
  rcases lt_trichotomy (scores.getD j 0) (scores.getD i 0) with hlt | heq | hgt
  · exact decide_eq_true (Or.inl hlt)
  · exact decide_eq_true (Or.inr ⟨heq, le_of_lt (h.2 heq.symm)⟩)
  · exact absurd hgt (not_lt.mpr h.1)

theorem ascRel_trans (scores : List ℚ) (i j k : ℕ)
    (h1 : ascRel scores i j = true) (h2 : ascRel scores j k = true) :
    ascRel scores i k = true := by
  unfold ascRel at h1 h2 ⊢
  rw [decide_eq_true_eq] at h1 h2
  rcases h1 with h1 | ⟨e1, l1⟩ <;> rcases h2 with h2 | ⟨e2, l2⟩
  · exact decide_eq_true (Or.inl (h1.trans h2))
  · exact decide_eq_true (Or.inl (e2 ▸ h1))
  · exact decide_eq_true (Or.inl (e1 ▸ h2))
  · exact decide_eq_true (Or.inr ⟨e1.trans e2, l2.trans l1⟩)

theorem ascIdx_pairwise (scores : List ℚ) :
    (ascIdx scores).Pairwise (fun i j => ascRel scores i j = true) :=
  pairwise_sortOrd (ascRel scores) (ascRel_false_of_not scores)
    (fun a b c => ascRel_trans scores a b c) (List.range scores.length)

theorem pyTail_sublist (l : List α) (k : ℕ) : List.Sublist (pyTail l k) l := by
  unfold pyTail
  split
  · exact List.Sublist.refl l
  · exact List.drop_sublist _ l

theorem pyTail_length_le (l : List α) (k : ℕ) (hk : k ≠ 0) : (pyTail l k).length ≤ k := by
  unfold pyTail
  rw [if_neg hk, List.length_drop]
  omega

theorem getD_map_of_lt (f : ℕ → α) (K : List ℕ) (i : ℕ) (h : i < K.length) (d : α) :
    (K.map f).getD i d = f (K[i]) := by
  have h2 : i < (K.map f).length := by simpa using h
  rw [List.getD_eq_getElem _ d h2]
  simp

/-- Running `nms` on a list of boxes/scores that came out of a previous `nms`
run (descending scores, pairwise overlap at most the threshold) keeps
everything, in order. -/
theorem nms_on_kept (boxes : List Box) (scores : List ℚ) (overlap : ℚ) (top_k : ℕ)
    (K : List ℕ)
    (hKdesc : K.Pairwise (fun i j => ascRel scores j i = true))
    (hKpw : K.Pairwise (IoUle boxes overlap))
    (hc : top_k ≠ 0 → K.length ≤ top_k) :
    nms (K.map fun i => boxes.getD i default) (K.map fun i => scores.getD i 0)
      overlap top_k = (List.range K.length, K.length) := by
  cases hKnil : K with
  | nil => simp [nms]
  | cons k0 ks =>
  rw [← hKnil]
  have hKne : K ≠ [] := by rw [hKnil]; simp
  have hB : (K.map fun i => boxes.getD i default) ≠ [] := by
    simpa using hKne
  rw [nms, if_neg hB]
  have hlen : (K.map fun i => scores.getD i 0).length = K.length := by simp
  -- the fresh index range is anti-sorted for the mapped scores
  have hanti : (List.range K.length).Pairwise
      (fun i j => ascRel (K.map fun i => scores.getD i 0) i j = false) := by
    rw [List.pairwise_iff_getElem]
    intro i j hi hj hij
    simp only [List.length_range] at hi hj
    rw [List.getElem_range, List.getElem_range]
    have hdesc := (List.pairwise_iff_getElem.mp hKdesc) i j hi hj hij
    unfold ascRel at hdesc ⊢
    rw [decide_eq_true_eq] at hdesc
    have hSi : (K.map fun i => scores.getD i 0).getD i 0 = scores.getD (K[i]) 0 :=
      getD_map_of_lt _ K i hi 0
    have hSj : (K.map fun i => scores.getD i 0).getD j 0 = scores.getD (K[j]) 0 :=
      getD_map_of_lt _ K j hj 0
    rw [decide_eq_false_iff_not, hSi, hSj]
    rcases hdesc with hlt | ⟨heq, _⟩
    · rintro (h' | ⟨h', _⟩)
      · exact lt_asymm hlt h'
      · rw [h'] at hlt; exact lt_irrefl _ hlt
    · rintro (h' | ⟨_, hji⟩)
      · rw [heq] at h'; exact lt_irrefl _ h'
      · omega
  have hasc : ascIdx (K.map fun i => scores.getD i 0) = (List.range K.length).reverse := by
    unfold ascIdx
    rw [hlen]
    exact sortOrd_eq_reverse _ _ hanti
  have htail : pyTail (ascIdx (K.map fun i => scores.getD i 0)) top_k
      = (List.range K.length).reverse := by
    rw [hasc]
    unfold pyTail
    split
    · rfl
    · rename_i hk
      have hle : K.length ≤ top_k := hc hk
      have : (List.range K.length).reverse.length - top_k = 0 := by
        simp [List.length_range]; omega
      rw [this, List.drop_zero]
  rw [htail, List.reverse_reverse]
  have hpwB : (List.range K.length).Pairwise
      (IoUle (K.map fun i => boxes.getD i default) overlap) := by
    rw [List.pairwise_iff_getElem]
    intro i j hi hj hij
    simp only [List.length_range] at hi hj
    rw [List.getElem_range, List.getElem_range]
    have hpb := (List.pairwise_iff_getElem.mp hKpw) i j hi hj hij
    unfold IoUle at hpb ⊢
    rw [getD_map_of_lt _ K i hi default, getD_map_of_lt _ K j hj default]
    exact hpb
  rw [nmsSelect_eq_self _ _ _ hpwB]
  simp

/-- The first `nms` run establishes the hypotheses of `nms_on_kept` for its
kept list. -/
theorem nms_kept_facts (boxes : List Box) (scores : List ℚ) (overlap : ℚ) (top_k : ℕ) :
    (nms boxes scores overlap top_k).1.Pairwise (fun i j => ascRel scores j i = true) ∧
    (nms boxes scores overlap top_k).1.Pairwise (IoUle boxes overlap) ∧
    (top_k ≠ 0 → (nms boxes scores overlap top_k).1.length ≤ top_k) := by
  by_cases hb : boxes = []
  · simp [nms, hb]
  · rw [nms, if_neg hb]
    simp only
    refine ⟨?_, nmsSelect_pairwise _ _ _, ?_⟩
    · have hKR := nmsSelect_sublist boxes overlap ((pyTail (ascIdx scores) top_k).reverse)
      refine List.Pairwise.sublist hKR ?_
      rw [List.pairwise_reverse]
      exact List.Pairwise.sublist (pyTail_sublist _ _) (ascIdx_pairwise scores)
    · intro hk
      have h1 := (nmsSelect_sublist boxes overlap
        ((pyTail (ascIdx scores) top_k).reverse)).length_le
      have h2 : ((pyTail (ascIdx scores) top_k).reverse).length ≤ top_k := by
        rw [List.length_reverse]
        exact pyTail_length_le _ _ hk
      omega

theorem nms_snd_eq_length (boxes : List Box) (scores : List ℚ) (overlap : ℚ) (top_k : ℕ) :
    (nms boxes scores overlap top_k).2 = (nms boxes scores overlap top_k).1.length := by
  by_cases hb : boxes = [] <;> simp [nms, hb]

/-- C6: `nms` is idempotent: running it again on exactly the boxes and scores
it kept, with the same threshold and top-k, keeps all of them again — the
output is the full index range `0, …, count-1` in order, i.e. the same boxes
in the same descending-score order. -/
theorem nms_idempotent (boxes : List Box) (scores : List ℚ) (overlap : ℚ) (top_k : ℕ) :
    nms ((nms boxes scores overlap top_k).1.map fun i => boxes.getD i default)
        ((nms boxes scores overlap top_k).1.map fun i => scores.getD i 0)
        overlap top_k
      = (List.range (nms boxes scores overlap top_k).2,
          (nms boxes scores overlap top_k).2) := by
  obtain ⟨h1, h2, h3⟩ := nms_kept_facts boxes scores overlap top_k
  rw [nms_snd_eq_length]
  exact nms_on_kept boxes scores overlap top_k _ h1 h2 h3

/-- C7 (amended): for a positive top-k cutoff and matching boxes/scores
lengths, the kept count is at most `top_k` and at most the number of boxes. -/
theorem nms_count_le (boxes : List Box) (scores : List ℚ) (overlap : ℚ) (top_k : ℕ)
    (hk : 1 ≤ top_k) (hlen : scores.length = boxes.length) :
    (nms boxes scores overlap top_k).2 ≤ top_k ∧
      (nms boxes scores overlap top_k).2 ≤ boxes.length := by
  by_cases hb : boxes = []
  · simp [nms, hb]
  · rw [nms, if_neg hb]
    simp only
    have hsub := (nmsSelect_sublist boxes overlap
      ((pyTail (ascIdx scores) top_k).reverse)).length_le
    rw [List.length_reverse] at hsub
    constructor
    · exact hsub.trans (pyTail_length_le _ _ (by omega))
    · have h2 := (pyTail_sublist (ascIdx scores) top_k).length_le
      have h3 : (ascIdx scores).length = scores.length := by
        unfold ascIdx
        rw [length_sortOrd, List.length_range]
      omega

theorem nms_count_le_witness :
    (1 ≤ 200 ∧ ([(1 : ℚ)] : List ℚ).length = ([⟨0, 0, 1, 1⟩] : List Box).length) ∧
      (nms [⟨0, 0, 1, 1⟩] [(1 : ℚ)] (1/2) 200).2 ≤ 200 ∧
      (nms [⟨0, 0, 1, 1⟩] [(1 : ℚ)] (1/2) 200).2 ≤ ([⟨0, 0, 1, 1⟩] : List Box).length :=
  ⟨⟨by norm_num, by simp⟩,
    nms_count_le [⟨0, 0, 1, 1⟩] [(1 : ℚ)] (1/2) 200 (by norm_num) (by simp)⟩

/-- C7 (counterexample to the unrestricted claim): with `top_k = 0` the
Python slice `idx[-0:]` is `idx[0:]`, i.e. the whole index list, so `nms`
keeps one box even though the top-k cutoff is 0. -/
theorem nms_count_exceeds_topk_zero :
    (nms [⟨0, 0, 1, 1⟩] [(1 : ℚ)] (1/2) 0).2 = 1 ∧
      ¬ (nms [⟨0, 0, 1, 1⟩] [(1 : ℚ)] (1/2) 0).2 ≤ 0 := by
  have h : nms [⟨0, 0, 1, 1⟩] [(1 : ℚ)] (1/2) 0 = ([0], 1) := by
    norm_num [nms, nmsSelect, nmsLoop, ascIdx, sortOrd, insertOrd, pyTail]
  rw [h]
  omega

/-- C10: the overlap measure used inside `nms` (areas and widths without the
`+1` term) is a different function from `bbox_iou`: on the valid pair
`(0,0,10,10)`, `(0,0,5,10)` the suppression loop sees IoU `1/2` while
`bbox_iou` yields `6/11`. -/
theorem nmsIoU_ne_bbox_iou :
    (⟨0, 0, 10, 10⟩ : Box).valid ∧ (⟨0, 0, 5, 10⟩ : Box).valid ∧
      nmsIoU ⟨0, 0, 10, 10⟩ ⟨0, 0, 5, 10⟩ = 1/2 ∧
      bbox_iou ⟨0, 0, 10, 10⟩ ⟨0, 0, 5, 10⟩ = 6/11 ∧
      nmsIoU ⟨0, 0, 10, 10⟩ ⟨0, 0, 5, 10⟩ ≠ bbox_iou ⟨0, 0, 10, 10⟩ ⟨0, 0, 5, 10⟩ := by
  refine ⟨⟨by norm_num, by norm_num⟩, ⟨by norm_num, by norm_num⟩, ?_, ?_, ?_⟩
  · norm_num [nmsIoU, nmsArea]
  · norm_num [bbox_iou, interArea, boxArea]
  · norm_num [nmsIoU, nmsArea, bbox_iou, interArea, boxArea]

/-! Box geometry claims. -/

/-- C4: for boxes with positive width and height, the `bbox_iou` denominator
`area1 + area2 - inter` is strictly positive (so the division-by-zero
failure mode is unreachable) and the IoU lies in `[0, 1]`. -/
theorem bbox_iou_bounds (b1 b2 : Box) (h1 : b1.valid) (h2 : b2.valid) :
    0 < boxArea b1 + boxArea b2 - interArea b1 b2 ∧
      0 ≤ bbox_iou b1 b2 ∧ bbox_iou b1 b2 ≤ 1 := by
  obtain ⟨h1x, h1y⟩ := h1
  obtain ⟨h2x, h2y⟩ := h2
  set wI : ℚ := max (min b1.x2 b2.x2 - max b1.x1 b2.x1 + 1) 0 with hwI
  set hI : ℚ := max (min b1.y2 b2.y2 - max b1.y1 b2.y1 + 1) 0 with hhI
  have hwI0 : 0 ≤ wI := le_max_right _ _
  have hhI0 : 0 ≤ hI := le_max_right _ _
  have hw1 : 0 < b1.x2 - b1.x1 + 1 := by linarith
  have hh1 : 0 < b1.y2 - b1.y1 + 1 := by linarith
  have hw2 : 0 < b2.x2 - b2.x1 + 1 := by linarith
  have hh2 : 0 < b2.y2 - b2.y1 + 1 := by linarith
  have hwI1 : wI ≤ b1.x2 - b1.x1 + 1 := by
    rw [hwI]
    apply max_le _ (le_of_lt hw1)
    have := min_le_left b1.x2 b2.x2
    have := le_max_left b1.x1 b2.x1
    linarith
  have hhI1 : hI ≤ b1.y2 - b1.y1 + 1 := by
    rw [hhI]
    apply max_le _ (le_of_lt hh1)
    have := min_le_left b1.y2 b2.y2
    have := le_max_left b1.y1 b2.y1
    linarith
  have hwI2 : wI ≤ b2.x2 - b2.x1 + 1 := by
    rw [hwI]
    apply max_le _ (le_of_lt hw2)
    have := min_le_right b1.x2 b2.x2
    have := le_max_right b1.x1 b2.x1
    linarith
  have hhI2 : hI ≤ b2.y2 - b2.y1 + 1 := by
    rw [hhI]
    apply max_le _ (le_of_lt hh2)
    have := min_le_right b1.y2 b2.y2
    have := le_max_right b1.y1 b2.y1
    linarith
  have hIA : interArea b1 b2 = wI * hI := rfl
  have hA1 : boxArea b1 = (b1.x2 - b1.x1 + 1) * (b1.y2 - b1.y1 + 1) := rfl
  have hA2 : boxArea b2 = (b2.x2 - b2.x1 + 1) * (b2.y2 - b2.y1 + 1) := rfl
  have hIle1 : interArea b1 b2 ≤ boxArea b1 := by
    rw [hIA, hA1]
    exact mul_le_mul hwI1 hhI1 hhI0 (le_of_lt hw1)
  have hIle2 : interArea b1 b2 ≤ boxArea b2 := by
    rw [hIA, hA2]
    exact mul_le_mul hwI2 hhI2 hhI0 (le_of_lt hw2)
  have hI0 : 0 ≤ interArea b1 b2 := by
    rw [hIA]; exact mul_nonneg hwI0 hhI0
  have hA1pos : 0 < boxArea b1 := by rw [hA1]; exact mul_pos hw1 hh1
  have hA2pos : 0 < boxArea b2 := by rw [hA2]; exact mul_pos hw2 hh2
  have hden : 0 < boxArea b1 + boxArea b2 - interArea b1 b2 := by linarith
  refine ⟨hden, ?_, ?_⟩
  · exact div_nonneg hI0 (le_of_lt hden)
  · rw [bbox_iou, div_le_one hden]
    linarith

theorem bbox_iou_bounds_witness :
    (⟨0, 0, 10, 10⟩ : Box).valid ∧ (⟨0, 0, 5, 10⟩ : Box).valid ∧
      (0 < boxArea ⟨0, 0, 10, 10⟩ + boxArea ⟨0, 0, 5, 10⟩ -
          interArea ⟨0, 0, 10, 10⟩ ⟨0, 0, 5, 10⟩ ∧
        0 ≤ bbox_iou ⟨0, 0, 10, 10⟩ ⟨0, 0, 5, 10⟩ ∧
          bbox_iou ⟨0, 0, 10, 10⟩ ⟨0, 0, 5, 10⟩ ≤ 1) :=
  ⟨by norm_num [Box.valid], by norm_num [Box.valid],
    bbox_iou_bounds ⟨0, 0, 10, 10⟩ ⟨0, 0, 5, 10⟩ (by norm_num [Box.valid])
      (by norm_num [Box.valid])⟩

/-- C5 (counterexample): two valid boxes with zero spatial overlap — their
closures are disjoint, separated by `1/2` on the x-axis — nevertheless get
`bbox_iou = 1/42 ≠ 0`, because of the `+1` inclusive-pixel convention. -/
theorem bbox_iou_pos_of_disjoint_boxes :
    (⟨0, 0, 10, 10⟩ : Box).valid ∧ (⟨21/2, 0, 20, 10⟩ : Box).valid ∧
      Box.disjoint ⟨0, 0, 10, 10⟩ ⟨21/2, 0, 20, 10⟩ ∧
      bbox_iou ⟨0, 0, 10, 10⟩ ⟨21/2, 0, 20, 10⟩ = 1/42 ∧
      bbox_iou ⟨0, 0, 10, 10⟩ ⟨21/2, 0, 20, 10⟩ ≠ 0 := by
  refine ⟨by norm_num [Box.valid], by norm_num [Box.valid], ?_, ?_, ?_⟩
  · unfold Box.disjoint; norm_num
  · norm_num [bbox_iou, interArea, boxArea]
  · norm_num [bbox_iou, interArea, boxArea]

/-- C5 (amended): `bbox_iou` is exactly 0 when the boxes are separated by at
least 1 on some axis — i.e. when they are disjoint as inclusive integer
pixel ranges, which is what "zero spatial overlap" means under the source's
`+1` convention. -/
theorem bbox_iou_eq_zero_of_separated (b1 b2 : Box)
    (hsep : b1.x2 + 1 ≤ b2.x1 ∨ b2.x2 + 1 ≤ b1.x1 ∨
      b1.y2 + 1 ≤ b2.y1 ∨ b2.y2 + 1 ≤ b1.y1) :
    bbox_iou b1 b2 = 0 := by
  have hzero : interArea b1 b2 = 0 := by
    unfold interArea
    rcases hsep with h | h | h | h
    · have hx : min b1.x2 b2.x2 - max b1.x1 b2.x1 + 1 ≤ 0 := by
        have := min_le_left b1.x2 b2.x2
        have := le_max_right b1.x1 b2.x1
        linarith
      rw [max_eq_right hx, zero_mul]
    · have hx : min b1.x2 b2.x2 - max b1.x1 b2.x1 + 1 ≤ 0 := by
        have := min_le_right b1.x2 b2.x2
        have := le_max_left b1.x1 b2.x1
        linarith
      rw [max_eq_right hx, zero_mul]
    · have hy : min b1.y2 b2.y2 - max b1.y1 b2.y1 + 1 ≤ 0 := by
        have := min_le_left b1.y2 b2.y2
        have := le_max_right b1.y1 b2.y1
        linarith
      rw [max_eq_right hy, mul_zero]
    · have hy : min b1.y2 b2.y2 - max b1.y1 b2.y1 + 1 ≤ 0 := by
        have := min_le_right b1.y2 b2.y2
        have := le_max_left b1.y1 b2.y1
        linarith
      rw [max_eq_right hy, mul_zero]
  rw [bbox_iou, hzero, zero_div]

theorem bbox_iou_eq_zero_of_separated_witness :
    ((⟨0, 0, 10, 10⟩ : Box).x2 + 1 ≤ (⟨12, 0, 20, 10⟩ : Box).x1 ∨
        (⟨12, 0, 20, 10⟩ : Box).x2 + 1 ≤ (⟨0, 0, 10, 10⟩ : Box).x1 ∨
        (⟨0, 0, 10, 10⟩ : Box).y2 + 1 ≤ (⟨12, 0, 20, 10⟩ : Box).y1 ∨
        (⟨12, 0, 20, 10⟩ : Box).y2 + 1 ≤ (⟨0, 0, 10, 10⟩ : Box).y1) ∧
      bbox_iou ⟨0, 0, 10, 10⟩ ⟨12, 0, 20, 10⟩ = 0 :=
  ⟨by norm_num,
    bbox_iou_eq_zero_of_separated ⟨0, 0, 10, 10⟩ ⟨12, 0, 20, 10⟩ (by norm_num)⟩

/-- C8 (counterexample): a box with non-positive width (here `x2 - x1 =
-1/2`) is processed without any error-raising path: `bbox_iou` happily
returns `1.0` for it against itself, its internal `nms` area is negative,
and `nms` keeps it.  No `InvalidBoxError`-style failure exists in the
source. -/
theorem degenerate_box_computes_silently :
    (⟨0, 0, -1/2, 10⟩ : Box).x2 - (⟨0, 0, -1/2, 10⟩ : Box).x1 ≤ 0 ∧
      bbox_iou ⟨0, 0, -1/2, 10⟩ ⟨0, 0, -1/2, 10⟩ = 1 ∧
      nmsArea ⟨0, 0, -1/2, 10⟩ < 0 ∧
      nms [⟨0, 0, -1/2, 10⟩] [(1 : ℚ)] (1/2) 200 = ([0], 1) := by
  refine ⟨by norm_num, ?_, by norm_num [nmsArea], ?_⟩
  · norm_num [bbox_iou, interArea, boxArea]
  · norm_num [nms, nmsSelect, nmsLoop, ascIdx, sortOrd, insertOrd, pyTail]

/-- C8 (amended): the geometry operations perform no validation at all — a
single box with non-positive width or height is accepted by `nms`, which
silently keeps it and reports count 1 for any score, threshold and top-k. -/
theorem nms_accepts_degenerate_box (b : Box) (s overlap : ℚ) (top_k : ℕ)
    (_hdeg : b.x2 - b.x1 ≤ 0 ∨ b.y2 - b.y1 ≤ 0) :
    nms [b] [s] overlap top_k = ([0], 1) := by
  have hasc : ascIdx [s] = [0] := by
    norm_num [ascIdx, sortOrd, insertOrd]
  have htail : pyTail ([0] : List ℕ) top_k = [0] := by
    unfold pyTail
    split
    · rfl
    · rename_i hk
      simp only [List.length_cons, List.length_nil]
      have : 1 - top_k = 0 := by omega
      rw [this, List.drop_zero]
  rw [nms, if_neg (by simp), hasc, htail]
  simp [nmsSelect, nmsLoop]

theorem nms_accepts_degenerate_box_witness :
    ((⟨0, 0, -1/2, 10⟩ : Box).x2 - (⟨0, 0, -1/2, 10⟩ : Box).x1 ≤ 0 ∨
        (⟨0, 0, -1/2, 10⟩ : Box).y2 - (⟨0, 0, -1/2, 10⟩ : Box).y1 ≤ 0) ∧
      nms [⟨0, 0, -1/2, 10⟩] [(3 : ℚ)] (2/5) 100 = ([0], 1) :=
  ⟨by norm_num,
    nms_accepts_degenerate_box ⟨0, 0, -1/2, 10⟩ 3 (2/5) 100 (by norm_num)⟩

/-! Average precision (`eval.py` lines 159-190) -/

/-- One backward step of the envelope loop followed by the rest:
`envRun l v` performs `mpre[u-1] = max(mpre[u-1], mpre[u])` for
`u = v, v-1, …, 1`, exactly the loop
`for i in range(mpre.size - 1, 0, -1): mpre[i-1] = np.maximum(mpre[i-1], mpre[i])`
of `eval.py` lines 181-182 when started at `v = mpre.size - 1`. -/
def envRun (l : List ℚ) : ℕ → List ℚ
  | 0 => l
  | i + 1 => envRun (l.set i (max (l.getD i 0) (l.getD (i + 1) 0))) i

/-- Source `eval.py` lines 186-189: the indices where the (sentinel-padded) recall
changes, and the sum of `(mrec[i+1] - mrec[i]) * mpre[i+1]` over them. -/
def apSum (mrec mpre : List ℚ) : ℚ :=
  (((List.range (mrec.length - 1)).filter fun i =>
      decide (mrec.getD (i + 1) 0 ≠ mrec.getD i 0)).map fun i =>
    (mrec.getD (i + 1) 0 - mrec.getD i 0) * mpre.getD (i + 1) 0).sum

/-- Source `eval.py` lines 159-190, `average_precision`: the 11-point branch
averages, over `t = 0, 0.1, …, 1.0`, the maximum precision among entries
with recall at least `t` (0 when there is none); the default branch pads
with sentinels `rec ↦ [0] ++ rec ++ [1]`, `prec ↦ [0] ++ prec ++ [0]`,
runs the backward envelope loop, and integrates where recall changes. -/
def average_precision (rec prec : List ℚ) (use_07_metric : Bool) : ℚ :=
  if use_07_metric then
    ((List.range 11).map fun k =>
      (match (((rec.zip prec).filter fun rp =>
          decide ((k : ℚ) / 10 ≤ rp.1)).map Prod.snd).max? with
       | none => (0 : ℚ)
       | some p => p) / 11).sum
  else
    apSum ([(0 : ℚ)] ++ rec ++ [1])
      (envRun ([(0 : ℚ)] ++ prec ++ [0]) (([(0 : ℚ)] ++ prec ++ [0]).length - 1))

/-- The precision envelope as the spec states it: scanning from the end
backward, replace each precision value by the maximum of itself and the
value ahead of it. -/
def specEnvelope : List ℚ → List ℚ
  | [] => []
  | a :: rest => max a ((specEnvelope rest).headD a) :: specEnvelope rest

/-- The spec's four-step non-11-point AP: pad with the sentinels, take the
backward-maximum envelope, and sum `Δrecall × envelope-precision` over the
indices where recall changes. -/
def apNon11Spec (rec prec : List ℚ) : ℚ :=
  apSum ([(0 : ℚ)] ++ rec ++ [1]) (specEnvelope ([(0 : ℚ)] ++ prec ++ [0]))

theorem specEnvelope_length (l : List ℚ) : (specEnvelope l).length = l.length := by
  induction l with
  | nil => rfl
  | cons a rest ih => simp [specEnvelope, ih]

theorem specEnvelope_ne_nil (l : List ℚ) (h : l ≠ []) : specEnvelope l ≠ [] := by
  intro hc
  apply h
  have := specEnvelope_length l
  rw [hc] at this
  exact List.length_eq_zero.mp this.symm

theorem specEnvelope_snoc2 (xs : List ℚ) (a b : ℚ) :
    specEnvelope (xs ++ [a, b]) = specEnvelope (xs ++ [max a b]) ++ [b] := by
  induction xs with
  | nil => simp [specEnvelope]
  | cons x xs ih =>
    have hne : specEnvelope (xs ++ [max a b]) ≠ [] := specEnvelope_ne_nil _ (by simp)
    simp only [List.cons_append, specEnvelope, List.append_eq]
    rw [ih]
    cases hE : specEnvelope (xs ++ [max a b]) with
    | nil => exact absurd hE hne
    | cons e es => simp

theorem set_take_succ (l : List ℚ) (i : ℕ) (m : ℚ) (h : i < l.length) :
    (l.set i m).take (i + 1) = l.take i ++ [m] := by
  induction l generalizing i with
  | nil => simp at h
  | cons a t ih =>
    cases i with
    | zero => simp
    | succ i =>
      simp only [List.set_cons_succ, List.take_succ_cons, List.cons_append,
        List.cons.injEq, true_and]
      exact ih i (by simpa using h)

theorem set_drop_succ (l : List ℚ) (i : ℕ) (m : ℚ) :
    (l.set i m).drop (i + 1) = l.drop (i + 1) := by
  induction l generalizing i with
  | nil => rfl
  | cons a t ih =>
    cases i with
    | zero => rfl
    | succ i =>
      simp only [List.set_cons_succ, List.drop_succ_cons]
      exact ih i

theorem take_succ_getD (l : List ℚ) (i : ℕ) (h : i < l.length) :
    l.take (i + 1) = l.take i ++ [l.getD i 0] := by
  induction l generalizing i with
  | nil => simp at h
  | cons a t ih =>
    cases i with
    | zero => simp [List.getD]
    | succ i =>
      simp only [List.take_succ_cons, List.cons_append, List.cons.injEq, true_and,
        List.getD_cons_succ]
      exact ih i (by simpa using h)

theorem envRun_eq_specEnvelope : ∀ (i : ℕ) (l : List ℚ), i < l.length →
    envRun l i = specEnvelope (l.take (i + 1)) ++ l.drop (i + 1) := by
  intro i
  induction i with
  | zero =>
    intro l h
    cases l with
    | nil => simp at h
    | cons a t => simp [envRun, specEnvelope]
  | succ i ih =>
    intro l h
    rw [envRun]
    have hlen : i < (l.set i (max (l.getD i 0) (l.getD (i + 1) 0))).length := by
      simp only [List.length_set]; omega
    rw [ih _ hlen, set_take_succ l i _ (by omega), set_drop_succ]
    have h1 : l.take (i + 2) = l.take i ++ [l.getD i 0, l.getD (i + 1) 0] := by
      rw [take_succ_getD l (i + 1) h, take_succ_getD l i (by omega)]
      simp
    have h2 : l.drop (i + 1) = l.getD (i + 1) 0 :: l.drop (i + 2) := by
      rw [List.getD_eq_getElem _ _ h]
      exact List.drop_eq_getElem_cons h
    rw [h1, specEnvelope_snoc2, h2]
    simp

/-- C2: the default (non-11-point) branch of `average_precision` computes
exactly the spec's four steps: sentinel padding (`recall ↦ [0]++rec++[1]`,
`precision ↦ [0]++prec++[0]`), the backward-scan precision envelope, and
the sum of `(recall[i+1] - recall[i]) × envelope-precision[i+1]` over the
indices where recall changes. -/
theorem average_precision_follows_spec (rec prec : List ℚ) :
    average_precision rec prec false = apNon11Spec rec prec := by
  rw [average_precision, apNon11Spec]
  simp only [Bool.false_eq_true, if_false]
  congr 1
  have hpos : 0 < ([(0 : ℚ)] ++ prec ++ [0]).length := by simp
  have h : ([(0 : ℚ)] ++ prec ++ [0]).length - 1 < ([(0 : ℚ)] ++ prec ++ [0]).length := by
    omega
  rw [envRun_eq_specEnvelope _ _ h]
  have h1 : ([(0 : ℚ)] ++ prec ++ [0]).length - 1 + 1 = ([(0 : ℚ)] ++ prec ++ [0]).length := by
    omega
  rw [h1, List.take_length, List.drop_length, List.append_nil]

/-! Per-image matching and the accumulator (`eval.py` lines 193-251) -/

/-- A prediction row `[x1, y1, x2, y2, conf, …]`: `custom_eval` uses
`predictions[:, :4]` as the box and `predictions[:, 4]` as the
confidence. -/
structure Detection where
  box : Box
  conf : ℚ
deriving DecidableEq, Repr

/-- Source `np.argsort(-confidence)` (`eval.py` line 217): descending confidence. -/
def confDesc (p q : Detection) : Bool := decide (q.conf ≤ p.conf)

/-- The nested loops of `eval.py` lines 226-232: one IoU per
(detection, ground-truth) pair, detections outermost, computed as
`bbox_iou(gt_box, detection_box)`. -/
def pairIoUs (preds : List Detection) (gts : List Box) : List ℚ :=
  preds.flatMap fun p => gts.map fun g => bbox_iou g p.box

/-- Source `eval.py` lines 206-241, the per-image body of `custom_eval`: an empty
prediction list contributes `fp = 1` and the image is skipped; otherwise
detections are sorted by descending confidence, every
detection×ground-truth IoU is collected, and the image is `tp = 1` iff the
maximum IoU strictly exceeds `ovthresh`, else `fp = 1`.  `np.max` of an
empty array (that is, predictions but no ground-truth boxes) raises
`ValueError`, modelled as `none`. -/
def imageEval (predictions : List Detection) (ground_truths : List Box)
    (ovthresh : ℚ) : Option (ℚ × ℚ) :=
  if predictions = [] then some (0, 1)
  else
    (pairIoUs (sortOrd confDesc predictions) ground_truths).max?.map fun ovmax =>
      if ovmax > ovthresh then (1, 0) else (0, 1)

/-- Python exception propagation for the image loop: the first failing
image aborts the whole run. -/
def seqOption : List (Option α) → Option (List α)
  | [] => some []
  | none :: _ => none
  | some a :: rest => (seqOption rest).map (a :: ·)

/-- Running sums, as `np.cumsum`. -/
def cumsumFrom (acc : ℚ) : List ℚ → List ℚ
  | [] => []
  | x :: xs => (acc + x) :: cumsumFrom (acc + x) xs

def cumsum (l : List ℚ) : List ℚ := cumsumFrom 0 l

/-- Source `np.finfo(np.float64).eps = 2⁻⁵²`. -/
def npEps : ℚ := 1 / 2 ^ 52

/-- A float64 value as the recall division can produce it: an ordinary
(here exact, rational) value, `inf`, or `nan`. -/
inductive NFloat where
  | finite (q : ℚ)
  | inf
  | nan
deriving DecidableEq, Repr

/-- IEEE-754 division of the nonnegative float `t` by `float(num_gts)`
(`eval.py` line 246, `rec = tp / float(num_gts)`): with `num_gts = 0` this
does not raise — `0.0/0.0` is `nan` and `t/0.0` is `+inf` for `t > 0`. -/
def floatDiv (t : ℚ) (num_gts : ℕ) : NFloat :=
  if num_gts = 0 then (if t = 0 then NFloat.nan else NFloat.inf)
  else NFloat.finite (t / (num_gts : ℚ))

/-- Projection used to hand the recall curve to `average_precision`; exact
whenever `num_gts ≠ 0`, in which case every entry is finite.  (For
`num_gts = 0` the source's AP is NaN-propagated and carries no information;
no claim concerns it.) -/
def NFloat.toRat : NFloat → ℚ
  | NFloat.finite q => q
  | NFloat.inf => 0
  | NFloat.nan => 0

/-- The per-image flag loop of `custom_eval` (`eval.py` lines 201-241): one
`(tp, fp)` pair per image, `none` if any image raises.  As in the source,
the loop runs over `range(len(ground_truths_all))` and indexes
`predictions_all[i]`. -/
def evalFlags (predictions_all : List (List Detection))
    (ground_truths_all : List (List Box)) (ovthresh : ℚ) :
    Option (List (ℚ × ℚ)) :=
  seqOption ((List.range ground_truths_all.length).map fun i =>
    imageEval (predictions_all.getD i []) (ground_truths_all.getD i []) ovthresh)

/-- Source `eval.py` lines 193-251, `custom_eval`: per-image flags, cumulative
tp/fp sums, `rec = tp / float(num_gts)` (IEEE semantics, see `floatDiv`),
`prec = tp / np.maximum(tp + fp, eps)`, and the default-mode AP. -/
def custom_eval (predictions_all : List (List Detection))
    (ground_truths_all : List (List Box)) (num_gts : ℕ) (ovthresh : ℚ) :
    Option (List NFloat × List ℚ × ℚ) :=
  (evalFlags predictions_all ground_truths_all ovthresh).map fun flags =>
    let tp := cumsum (flags.map Prod.fst)
    let fp := cumsum (flags.map Prod.snd)
    let rec' := tp.map fun t => floatDiv t num_gts
    let prec := List.zipWith (fun t s => t / max s npEps) tp
      (List.zipWith (· + ·) tp fp)
    (rec', prec, average_precision (rec'.map NFloat.toRat) prec false)

theorem sortOrd_ne_nil (le : α → α → Bool) (l : List α) (h : l ≠ []) :
    sortOrd le l ≠ [] := by
  intro hc
  apply h
  have := length_sortOrd le l
  rw [hc] at this
  exact List.length_eq_zero.mp this.symm

theorem ratMax?_eq_some_iff (l : List ℚ) (m : ℚ) :
    l.max? = some m ↔ m ∈ l ∧ ∀ b ∈ l, b ≤ m := by
  haveI : Std.Antisymm ((· : ℚ) ≤ ·) := ⟨@fun a b h1 h2 => le_antisymm h1 h2⟩
  exact List.max?_eq_some_iff le_refl (fun _ _ => max_choice _ _) (fun _ _ _ => max_le_iff)

theorem pairIoUs_sorted_ne_nil (preds : List Detection) (gts : List Box)
    (hp : preds ≠ []) (hg : gts ≠ []) :
    pairIoUs (sortOrd confDesc preds) gts ≠ [] := by
  obtain ⟨p0, hp0⟩ := List.exists_mem_of_ne_nil _ (sortOrd_ne_nil confDesc preds hp)
  obtain ⟨g0, hg0⟩ := List.exists_mem_of_ne_nil _ hg
  exact List.ne_nil_of_mem
    (List.mem_flatMap.mpr ⟨p0, hp0, List.mem_map_of_mem _ hg0⟩)

theorem mem_pairIoUs_sortOrd (preds : List Detection) (gts : List Box) (x : ℚ) :
    x ∈ pairIoUs (sortOrd confDesc preds) gts ↔ x ∈ pairIoUs preds gts := by
  simp only [pairIoUs, List.mem_flatMap]
  constructor
  · rintro ⟨p, hp', hx⟩
    exact ⟨p, (sortOrd_perm confDesc preds).mem_iff.mp hp', hx⟩
  · rintro ⟨p, hp', hx⟩
    exact ⟨p, (sortOrd_perm confDesc preds).mem_iff.mpr hp', hx⟩

/-- C3: the per-image matching rule.  An image with an empty prediction
list is flagged as a false positive (`fp = 1`) and skipped; otherwise the
single maximum IoU over all prediction×ground-truth pairs decides the flag:
`tp = 1` iff it strictly exceeds the threshold, else `fp = 1`.  (The
maximum requires at least one pair, hence the nonempty ground-truth
hypothesis; with predictions but no ground truths the source's `np.max`
raises.) -/
theorem imageEval_matching_rule (preds : List Detection) (gts : List Box) (θ : ℚ) :
    (preds = [] → imageEval preds gts θ = some (0, 1)) ∧
    (preds ≠ [] → gts ≠ [] →
      ∃ m, (pairIoUs preds gts).max? = some m ∧
        imageEval preds gts θ =
          (if m > θ then some (1, 0) else some (0, 1))) := by
  constructor
  · intro h
    rw [imageEval, if_pos h]
  · intro hp hg
    have hne := pairIoUs_sorted_ne_nil preds gts hp hg
    cases hmax : (pairIoUs (sortOrd confDesc preds) gts).max? with
    | none => exact absurd (List.max?_eq_none_iff.mp hmax) hne
    | some m =>
      have hchar : m ∈ pairIoUs (sortOrd confDesc preds) gts ∧
          ∀ b ∈ pairIoUs (sortOrd confDesc preds) gts, b ≤ m :=
        (ratMax?_eq_some_iff _ m).mp hmax
      refine ⟨m, ?_, ?_⟩
      · rw [ratMax?_eq_some_iff]
        exact ⟨(mem_pairIoUs_sortOrd preds gts m).mp hchar.1,
          fun b hb => hchar.2 b ((mem_pairIoUs_sortOrd preds gts b).mpr hb)⟩
      · rw [imageEval, if_neg hp, hmax, Option.map_some', apply_ite some]

theorem imageEval_matching_rule_witness :
    (([⟨⟨0, 0, 10, 10⟩, 9/10⟩] : List Detection) ≠ [] ∧
        ([⟨0, 0, 10, 10⟩] : List Box) ≠ []) ∧
      ∃ m, (pairIoUs [⟨⟨0, 0, 10, 10⟩, 9/10⟩] [⟨0, 0, 10, 10⟩]).max? = some m ∧
        imageEval [⟨⟨0, 0, 10, 10⟩, 9/10⟩] [⟨0, 0, 10, 10⟩] (1/2) =
          (if m > 1/2 then some (1, 0) else some (0, 1)) :=
  ⟨⟨by simp, by simp⟩,
    (imageEval_matching_rule [⟨⟨0, 0, 10, 10⟩, 9/10⟩] [⟨0, 0, 10, 10⟩] (1/2)).2
      (by simp) (by simp)⟩

theorem imageEval_ne_none (preds : List Detection) (gts : List Box) (θ : ℚ)
    (hg : gts ≠ []) : imageEval preds gts θ ≠ none := by
  by_cases hp : preds = []
  · rw [imageEval, if_pos hp]
    simp
  · rw [imageEval, if_neg hp]
    cases hmax : (pairIoUs (sortOrd confDesc preds) gts).max? with
    | none =>
      exact absurd (List.max?_eq_none_iff.mp hmax)
        (pairIoUs_sorted_ne_nil preds gts hp hg)
    | some m => simp

theorem seqOption_isSome (l : List (Option α)) (h : ∀ o ∈ l, o ≠ none) :
    ∃ xs, seqOption l = some xs := by
  induction l with
  | nil => exact ⟨[], rfl⟩
  | cons o rest ih =>
    cases o with
    | none => exact absurd rfl (h none (by simp))
    | some a =>
      obtain ⟨xs, hxs⟩ := ih (fun o ho => h o (List.mem_cons_of_mem _ ho))
      exact ⟨a :: xs, by simp [seqOption, hxs]⟩

/-- C9: with `num_gts = 0` the evaluation does not crash (given every image
has ground-truth boxes, so no unrelated `np.max([])` error): `custom_eval`
returns, and every recall entry is the `nan` or `inf` sentinel — in
particular never the finite values 0 or 1. -/
theorem custom_eval_zero_gts (predictions_all : List (List Detection))
    (ground_truths_all : List (List Box)) (θ : ℚ)
    (_hlen : predictions_all.length = ground_truths_all.length)
    (hne : ∀ g ∈ ground_truths_all, g ≠ []) :
    ∃ recs prec ap,
      custom_eval predictions_all ground_truths_all 0 θ = some (recs, prec, ap) ∧
        ∀ r ∈ recs, (r = NFloat.nan ∨ r = NFloat.inf) ∧
          r ≠ NFloat.finite 0 ∧ r ≠ NFloat.finite 1 := by
  have hflags : ∃ fl, evalFlags predictions_all ground_truths_all θ = some fl := by
    unfold evalFlags
    apply seqOption_isSome
    intro o ho
    rw [List.mem_map] at ho
    obtain ⟨i, hi, rfl⟩ := ho
    rw [List.mem_range] at hi
    apply imageEval_ne_none
    rw [List.getD_eq_getElem _ _ hi]
    exact hne _ (List.getElem_mem _)
  obtain ⟨fl, hfl⟩ := hflags
  refine ⟨(cumsum (fl.map Prod.fst)).map (fun t => floatDiv t 0),
    List.zipWith (fun t s => t / max s npEps) (cumsum (fl.map Prod.fst))
      (List.zipWith (· + ·) (cumsum (fl.map Prod.fst)) (cumsum (fl.map Prod.snd))),
    average_precision
      (((cumsum (fl.map Prod.fst)).map (fun t => floatDiv t 0)).map NFloat.toRat)
      (List.zipWith (fun t s => t / max s npEps) (cumsum (fl.map Prod.fst))
        (List.zipWith (· + ·) (cumsum (fl.map Prod.fst)) (cumsum (fl.map Prod.snd))))
      false, ?_, ?_⟩
  · rw [custom_eval, hfl]
    rfl
  · intro r hr
    rw [List.mem_map] at hr
    obtain ⟨t, _, rfl⟩ := hr
    rw [floatDiv, if_pos rfl]
    by_cases ht : t = 0
    · rw [if_pos ht]
      exact ⟨Or.inl rfl, by simp, by simp⟩
    · rw [if_neg ht]
      exact ⟨Or.inr rfl, by simp, by simp⟩

theorem custom_eval_zero_gts_witness :
    ((([[⟨⟨0, 0, 10, 10⟩, 9/10⟩]] : List (List Detection)).length =
        ([[⟨0, 0, 10, 10⟩]] : List (List Box)).length) ∧
      ∀ g ∈ ([[⟨0, 0, 10, 10⟩]] : List (List Box)), g ≠ []) ∧
    ∃ recs prec ap,
      custom_eval [[⟨⟨0, 0, 10, 10⟩, 9/10⟩]] [[⟨0, 0, 10, 10⟩]] 0 (1/2) =
          some (recs, prec, ap) ∧
        ∀ r ∈ recs, (r = NFloat.nan ∨ r = NFloat.inf) ∧
          r ≠ NFloat.finite 0 ∧ r ≠ NFloat.finite 1 :=
  ⟨⟨rfl, by simp⟩,
    custom_eval_zero_gts [[⟨⟨0, 0, 10, 10⟩, 9/10⟩]] [[⟨0, 0, 10, 10⟩]] (1/2)
      rfl (by simp)⟩

/-- C1: the two-image scenario.  Image A: ground truth `(0,0,10,10)`,
prediction `(0,0,10,10)` at confidence 0.9 (IoU 1, true positive); image B:
ground truth `(0,0,10,10)`, prediction `(50,50,60,60)` at confidence 0.8
(IoU 0, false positive); `num_gts = 2`, threshold 0.5.  The per-image flags
cumulate to `tp = [1,1]`, `fp = [0,1]`; `custom_eval` returns
`rec = [0.5, 0.5]`, `prec = [1.0, 0.5]` and non-11-point AP `0.5`. -/
theorem custom_eval_two_image_scenario :
    (evalFlags [[⟨⟨0, 0, 10, 10⟩, 9/10⟩], [⟨⟨50, 50, 60, 60⟩, 8/10⟩]]
        [[⟨0, 0, 10, 10⟩], [⟨0, 0, 10, 10⟩]] (1/2)).map
        (fun fl => (cumsum (fl.map Prod.fst), cumsum (fl.map Prod.snd)))
      = some ([1, 1], [0, 1]) ∧
    custom_eval [[⟨⟨0, 0, 10, 10⟩, 9/10⟩], [⟨⟨50, 50, 60, 60⟩, 8/10⟩]]
        [[⟨0, 0, 10, 10⟩], [⟨0, 0, 10, 10⟩]] 2 (1/2)
      = some ([NFloat.finite (1/2), NFloat.finite (1/2)], [1, 1/2], 1/2) := by
  constructor <;>
    norm_num [custom_eval, evalFlags, imageEval, seqOption, pairIoUs, sortOrd,
      insertOrd, confDesc, bbox_iou, interArea, boxArea, cumsum, cumsumFrom,
      floatDiv, NFloat.toRat, npEps, average_precision, apSum, envRun,
      List.range_succ, List.getD, max_def, min_def]
